import Mathlib

/-!
Shallow embedding of the RiemannRho numerical core (src/lib.rs) over the
real numbers, together with theorems checking the natural-language
specification against it.  The four source functions `theta`, `z_func`,
`find_zero` and `estimate_t`, and the private helper `derivative`, are
translated operation for operation; machine floats become exact reals, the
unbounded bisection loop becomes a fuel-indexed recursion whose outer
`none` marks fuel exhaustion (the source loop has no such exit), and the
fixed 20-step Newton loop becomes a 20-fold recursion.
-/

open Real

noncomputable section

namespace RiemannRho

/-- Embedding of `theta` (src/lib.rs lines 16-19): the fixed 4-term
Riemann-Siegel theta asymptotic expansion. -/
def theta (t : ℝ) : ℝ :=
  let log_term := (t / 2) * Real.log (t / (2 * π))
  log_term - t / 2 - π / 8 + 1 / (48 * t) + 7 / (5760 * t ^ 3)
    - 31 / (80640 * t ^ 5)

/-- Formula of spec section 4.1, written out as the single expression
theta(t) = (t/2) ln(t/2pi) - t/2 - pi/8 + 1/(48t) + 7/(5760 t^3)
- 31/(80640 t^5). -/
def theta_spec (t : ℝ) : ℝ :=
  (t / 2) * Real.log (t / (2 * π)) - t / 2 - π / 8 + 1 / (48 * t)
    + 7 / (5760 * t ^ 3) - 31 / (80640 * t ^ 5)

/-- Embedding of `derivative` (src/lib.rs lines 31-37): recursive central
finite-difference approximation of the nth derivative. -/
def derivative (f : ℝ → ℝ) : ℝ → ℕ → ℝ → ℝ
  | x, 0, _ => f x
  | x, n + 1, h =>
    (derivative f (x + h) n h - derivative f (x - h) n h) / (2 * h)

/-- Embedding of the correction kernel closure `psi` inside `z_func`
(src/lib.rs line 61). -/
def psi (pp : ℝ) : ℝ :=
  Real.cos (2 * π * (pp * pp - pp - 1 / 16)) / Real.cos (2 * π * pp)

/-- Kernel as written in spec section 4.3 step 3. -/
def psi_spec (pp : ℝ) : ℝ :=
  Real.cos (2 * π * (pp ^ 2 - pp - 1 / 16)) / Real.cos (2 * π * pp)

/-- Embedding of `z_func` (src/lib.rs lines 47-83).  The main sum runs over
k = 1..nu; the in-place accumulation of `r` becomes the sum of the three
addends, each guarded exactly as the source guards it. -/
def z_func (t : ℝ) (terms : ℕ) : ℝ :=
  let sqrt_t_over_2pi := Real.sqrt (t / (2 * π))
  let nu : ℤ := ⌊sqrt_t_over_2pi⌋
  let p : ℝ := sqrt_t_over_2pi - nu
  let sum : ℝ :=
    2 * Finset.sum (Finset.Icc 1 nu.toNat)
      (fun k : ℕ => Real.cos (theta t - t * Real.log k) / Real.sqrt k)
  let sign : ℝ := if nu % 2 = 0 then -1 else 1
  let a := t / (2 * π)
  let scale := a ^ (-(1 / 4) : ℝ)
  let c0 := psi p
  let r0 := sign * scale * c0
  let r1 : ℝ :=
    if 1 ≤ terms then
      sign * scale * (-1 / (96 * π * π) * derivative psi p 3 (1e-5))
        * a ^ (-(1 / 2) : ℝ)
    else 0
  let r2 : ℝ :=
    if 2 ≤ terms then
      sign * scale
        * (1 / (18432 * π ^ 4) * derivative psi p 6 (1e-5)
            + 1 / (64 * π ^ 2) * derivative psi p 2 (1e-5))
        * a ^ (-1 : ℝ)
    else 0
  sum + (r0 + r1 + r2)

/-- Reference formula of spec section 4.3 and claim C1: a = t/2pi,
sqrtA = sqrt a, nu = floor sqrtA, p = sqrtA - nu, sign = -1 when nu is
even and +1 when nu is odd, and the result is twice the main sum plus
sign a^(-1/4) psi(p), plus the C1 correction when terms >= 1, plus the C2
correction when terms >= 2, the psi derivatives taken by the
finite-difference differentiator with h = 1e-5. -/
def z_func_spec (t : ℝ) (terms : ℕ) : ℝ :=
  let a := t / (2 * π)
  let sqrtA := Real.sqrt a
  let nu : ℤ := ⌊sqrtA⌋
  let p : ℝ := sqrtA - nu
  let sign : ℝ := if Even nu then -1 else 1
  2 * Finset.sum (Finset.Icc 1 nu.toNat)
      (fun k : ℕ => Real.cos (theta t - t * Real.log k) / Real.sqrt k)
    + sign * a ^ (-(1 / 4) : ℝ) * psi_spec p
    + (if 1 ≤ terms then
        sign * a ^ (-(1 / 4) : ℝ)
          * (-(1 / (96 * π ^ 2)) * derivative psi_spec p 3 (1e-5))
          * a ^ (-(1 / 2) : ℝ)
      else 0)
    + (if 2 ≤ terms then
        sign * a ^ (-(1 / 4) : ℝ)
          * (1 / (18432 * π ^ 4) * derivative psi_spec p 6 (1e-5)
              + 1 / (64 * π ^ 2) * derivative psi_spec p 2 (1e-5))
          * a ^ (-1 : ℝ)
      else 0)

/-- Embedding of the bisection loop of `find_zero` (src/lib.rs lines
102-115), indexed by fuel; `none` means the fuel ran out, a case the
source loop does not have (it can only exit through `Some(mid)`).  The
loop state is the bracket `a, b` and the Z-value `za` at `a`; `zb` is
written but never read inside the source loop and is dropped. -/
def bisectLoop (Z : ℝ → ℝ) (tol : ℝ) : ℕ → ℝ → ℝ → ℝ → Option ℝ
  | 0, _, _, _ => none
  | fuel + 1, a, b, za =>
    if b - a < tol then some ((a + b) / 2)
    else if za * Z ((a + b) / 2) > 0 then
      bisectLoop Z tol fuel ((a + b) / 2) b (Z ((a + b) / 2))
    else
      bisectLoop Z tol fuel a ((a + b) / 2) za

/-- `find_zero` generalised over the Z-function it evaluates, as the
source loop is generic in the closure it calls.  The outer `Option` layer
distinguishes fuel exhaustion (`none`) from the two source outcomes
`some none` (returned `None`: no sign change) and `some (some t)`
(returned `Some(t)`). -/
def find_zeroZ (Z : ℝ → ℝ) (a b tol : ℝ) (fuel : ℕ) : Option (Option ℝ) :=
  let za := Z a
  let zb := Z b
  if za * zb > 0 then some none
  else Option.map some (bisectLoop Z tol fuel a b za)

/-- Embedding of `find_zero` (src/lib.rs lines 96-115). -/
def find_zero (a b tol : ℝ) (terms : ℕ) (fuel : ℕ) : Option (Option ℝ) :=
  find_zeroZ (fun t => z_func t terms) a b tol fuel

/-- Body of the Newton loop in `estimate_t` (src/lib.rs lines 131-136). -/
def newtonStep (n t : ℝ) : ℝ :=
  let a := t / (2 * π)
  let log_a := Real.log a
  let nt := a * log_a - a + 7 / 8
  let dnt := log_a
  t - (nt - n) * (2 * π / dnt)

/-- The fixed-count Newton loop of `estimate_t`: `k` remaining passes of
the source `for` loop. -/
def newtonLoop (n : ℝ) : ℕ → ℝ → ℝ
  | 0, t => t
  | k + 1, t => newtonLoop n k (newtonStep n t)

/-- Embedding of `estimate_t` (src/lib.rs lines 125-138). -/
def estimate_t (n : ℝ) : ℝ :=
  if n < 1 then 0
  else newtonLoop n 20 (2 * π * n * Real.log n)

/-- Newton update as spec section 4.5 words it: a = t/2pi, logA = ln a,
N(t) = a logA - a + 7/8, and t becomes t - (N(t) - n) (2pi/logA). -/
def newtonStep_spec (n t : ℝ) : ℝ :=
  t - ((t / (2 * π)) * Real.log (t / (2 * π)) - t / (2 * π) + 7 / 8 - n)
    * (2 * π / Real.log (t / (2 * π)))

/- ------------------------------------------------------------------ -/
/- Helper lemmas                                                       -/
/- ------------------------------------------------------------------ -/

theorem psi_eq_psi_spec : psi = psi_spec := by
  funext pp
  unfold psi psi_spec
  ring_nf

theorem newtonLoop_eq_iterate (n : ℝ) :
    ∀ (k : ℕ) (t : ℝ), newtonLoop n k t = (newtonStep_spec n)^[k] t := by
  intro k
  induction k with
  | zero => intro t; rfl
  | succ m ih =>
    intro t
    have hstep : newtonStep n t = newtonStep_spec n t := by
      unfold newtonStep newtonStep_spec
      ring_nf
    rw [newtonLoop, hstep, ih, Function.iterate_succ_apply]

theorem newtonStep_one_zero : newtonStep 1 0 = 0 := by
  unfold newtonStep
  simp [Real.log_zero]

theorem newtonLoop_one_zero : ∀ k : ℕ, newtonLoop 1 k 0 = 0 := by
  intro k
  induction k with
  | zero => rfl
  | succ m ih => rw [newtonLoop, newtonStep_one_zero, ih]

/-- Sign bookkeeping of the bisection: if the bracket product is
nonpositive and the left value shares sign with the midpoint value, the
midpoint value and the right value have nonpositive product. -/
theorem bracket_sign_flip {x y z : ℝ} (hxy : x * y ≤ 0) (hxz : x * z > 0) :
    z * y ≤ 0 := by
  have hx : x ≠ 0 := by
    intro h0
    rw [h0, zero_mul] at hxz
    exact lt_irrefl 0 hxz
  have hxx : 0 < x * x := mul_self_pos.mpr hx
  nlinarith

theorem map_some_ne_some_none (x : Option ℝ) :
    Option.map some x ≠ some none := by
  cases x <;> simp

/-- Invariant of the bisection loop: started on a bracket whose Z-values
have nonpositive product and with the cached value `Z a`, a `some t`
return happens only at a sub-bracket still carrying nonpositive product,
of width below the tolerance, with `t` its midpoint; the sub-bracket sits
inside the original one when that one is ordered. -/
theorem bisectLoop_aux (Z : ℝ → ℝ) (tol : ℝ) :
    ∀ (fuel : ℕ) (a b t : ℝ), Z a * Z b ≤ 0 →
      bisectLoop Z tol fuel a b (Z a) = some t →
      ∃ a' b', Z a' * Z b' ≤ 0 ∧ b' - a' < tol ∧ t = (a' + b') / 2 ∧
        (a ≤ b → a ≤ a' ∧ a' ≤ b' ∧ b' ≤ b) := by
  intro fuel
  induction fuel with
  | zero =>
    intro a b t _ hret
    simp [bisectLoop] at hret
  | succ k ih =>
    intro a b t hZ hret
    rw [bisectLoop] at hret
    split_ifs at hret with h1 h2
    · exact ⟨a, b, hZ, h1, (Option.some.inj hret).symm,
        fun hab => ⟨le_refl a, hab, le_refl b⟩⟩
    · have hZm : Z ((a + b) / 2) * Z b ≤ 0 := bracket_sign_flip hZ h2
      obtain ⟨a', b', q1, q2, q3, q4⟩ := ih ((a + b) / 2) b t hZm hret
      refine ⟨a', b', q1, q2, q3, fun hab => ?_⟩
      have hm1 : a ≤ (a + b) / 2 := by linarith
      have hm2 : (a + b) / 2 ≤ b := by linarith
      obtain ⟨r1, r2, r3⟩ := q4 hm2
      exact ⟨le_trans hm1 r1, r2, r3⟩
    · have hZm : Z a * Z ((a + b) / 2) ≤ 0 := not_lt.mp h2
      obtain ⟨a', b', q1, q2, q3, q4⟩ := ih a ((a + b) / 2) t hZm hret
      refine ⟨a', b', q1, q2, q3, fun hab => ?_⟩
      have hm1 : a ≤ (a + b) / 2 := by linarith
      have hm2 : (a + b) / 2 ≤ b := by linarith
      obtain ⟨r1, r2, r3⟩ := q4 hm1
      exact ⟨r1, r2, le_trans r3 hm2⟩

/- ------------------------------------------------------------------ -/
/- Claim theorems                                                      -/
/- ------------------------------------------------------------------ -/

/-- C1: for t > 0 and terms in 0..2, z_func equals the reference
Riemann-Siegel formula of the spec (main sum doubled, leading psi
correction with the parity sign, then the C1 and C2 corrections guarded by
terms >= 1 and terms >= 2, all psi derivatives taken by the
finite-difference differentiator with h = 1e-5). -/
theorem z_func_eq_spec (t : ℝ) (terms : ℕ) (ht : 0 < t) (hterms : terms ≤ 2) :
    z_func t terms = z_func_spec t terms := by
  simp only [z_func, z_func_spec, psi_eq_psi_spec, Int.even_iff]
  split_ifs <;> ring

/-- Witness for C1 at t = 1, terms = 2. -/
theorem z_func_eq_spec_witness :
    (0 : ℝ) < 1 ∧ (2 : ℕ) ≤ 2 ∧ z_func 1 2 = z_func_spec 1 2 :=
  ⟨zero_lt_one, le_refl 2, z_func_eq_spec 1 2 zero_lt_one (le_refl 2)⟩

/-- C2: find_zero answers `None` (here `some none`) exactly when the
endpoint Z-values have positive product; the check happens before the
loop, for every fuel alike, and the loop itself can never produce the
`None` signal. -/
theorem find_zero_none_iff (a b tol : ℝ) (terms fuel : ℕ) :
    find_zero a b tol terms fuel = some none ↔
      z_func a terms * z_func b terms > 0 := by
  by_cases h : z_func a terms * z_func b terms > 0
  · simp only [find_zero, find_zeroZ, if_pos h]
    exact iff_of_true trivial h
  · simp only [find_zero, find_zeroZ, if_neg h]
    exact iff_of_false (map_some_ne_some_none _) h

/-- C3: whenever the generic bisection (instantiated with z_func by
find_zero) starts on a bracket with nonpositive Z-product and returns
`Some t`, the product of the Z-values at the final bracket endpoints is
still nonpositive, t is the midpoint of that bracket, its width is below
the tolerance, and it lies inside the original bracket when a <= b; the
loop preserves the straddling product at every step because it always
replaces the endpoint whose value shares the midpoint value's sign. -/
theorem find_zeroZ_bracket_invariant (Z : ℝ → ℝ) (a b tol t : ℝ) (fuel : ℕ)
    (hZ : Z a * Z b ≤ 0)
    (hret : find_zeroZ Z a b tol fuel = some (some t)) :
    ∃ a' b', Z a' * Z b' ≤ 0 ∧ b' - a' < tol ∧ t = (a' + b') / 2 ∧
      (a ≤ b → a ≤ a' ∧ a' ≤ b' ∧ b' ≤ b) := by
  simp only [find_zeroZ] at hret
  rw [if_neg (not_lt.mpr hZ)] at hret
  have hloop : bisectLoop Z tol fuel a b (Z a) = some t := by
    cases hb : bisectLoop Z tol fuel a b (Z a) with
    | none => rw [hb] at hret; simp at hret
    | some u =>
      rw [hb] at hret
      simp only [Option.map_some', Option.some.injEq] at hret
      rw [hret]
  exact bisectLoop_aux Z tol fuel a b t hZ hloop

/-- Witness for C3: the identity Z-function on the bracket [-1, 1] with
tolerance 3 and fuel 1 returns the midpoint 0. -/
theorem find_zeroZ_bracket_invariant_witness :
    ((fun x : ℝ => x) (-1) * (fun x : ℝ => x) 1 ≤ 0) ∧
      ∃ a' b', (fun x : ℝ => x) a' * (fun x : ℝ => x) b' ≤ 0 ∧
        b' - a' < 3 ∧ (0 : ℝ) = (a' + b') / 2 ∧
        ((-1 : ℝ) ≤ 1 → -1 ≤ a' ∧ a' ≤ b' ∧ b' ≤ 1) := by
  have hZ : (fun x : ℝ => x) (-1) * (fun x : ℝ => x) 1 ≤ 0 := by norm_num
  have hb1 : bisectLoop (fun x : ℝ => x) 3 1 (-1) 1 (-1) = some 0 := by
    show bisectLoop (fun x : ℝ => x) 3 (0 + 1) (-1) 1 (-1) = some 0
    rw [bisectLoop]
    norm_num
  have hret : find_zeroZ (fun x : ℝ => x) (-1) 1 3 1 = some (some 0) := by
    simp only [find_zeroZ]
    norm_num [hb1]
  exact ⟨hZ, find_zeroZ_bracket_invariant (fun x : ℝ => x) (-1) 1 3 0 1 hZ hret⟩

/-- C7: for every t > 0, theta returns exactly the fixed 4-term
asymptotic expansion of spec section 4.1 (it is a total pure function,
so there is no error path). -/
theorem theta_eq_spec (t : ℝ) (ht : 0 < t) : theta t = theta_spec t := rfl

/-- Witness for C7 at t = 1. -/
theorem theta_eq_spec_witness : (0 : ℝ) < 1 ∧ theta 1 = theta_spec 1 :=
  ⟨zero_lt_one, theta_eq_spec 1 zero_lt_one⟩

/-- C8: the finite-difference differentiator returns f(x) at order 0 and
obeys the central-difference recursion at every positive order. -/
theorem derivative_recursion :
    (∀ (f : ℝ → ℝ) (x h : ℝ), derivative f x 0 h = f x) ∧
      ∀ (f : ℝ → ℝ) (x h : ℝ) (n : ℕ),
        derivative f x (n + 1) h =
          (derivative f (x + h) n h - derivative f (x - h) n h) / (2 * h) :=
  ⟨fun _ _ _ => rfl, fun _ _ _ _ => rfl⟩

/-- C6: estimate_t short-circuits to exactly 0 for every index below 1,
with no error raised (the function is total). -/
theorem estimate_t_degenerate (n : ℝ) (h : n < 1) : estimate_t n = 0 := by
  unfold estimate_t
  rw [if_pos h]

/-- Witness for C6 at the inputs 0 and -5 named by the spec. -/
theorem estimate_t_degenerate_witness :
    ((0 : ℝ) < 1 ∧ estimate_t 0 = 0) ∧ ((-5 : ℝ) < 1 ∧ estimate_t (-5) = 0) :=
  ⟨⟨zero_lt_one, estimate_t_degenerate 0 zero_lt_one⟩,
    ⟨by norm_num, estimate_t_degenerate (-5) (by norm_num)⟩⟩

/-- C5 (evaluation at the failing input): in the exact real embedding
estimate_t 1 = 0, not a value near 14-15: the seed 2 pi ln 1 is exactly 0
and every Newton update leaves 0 fixed (over IEEE floats the same
degeneracy makes logA = ln 0 the negative infinity and 0 times it a NaN,
so the compiled code returns NaN).  Either way the claimed positive value
near 14-15 is not produced. -/
theorem estimate_t_one_degenerate : estimate_t 1 = 0 := by
  unfold estimate_t
  rw [if_neg (lt_irrefl 1)]
  rw [show 2 * π * 1 * Real.log 1 = 0 by simp]
  exact newtonLoop_one_zero 20

/-- C4: for every n >= 1, estimate_t is exactly 20 applications of the
Newton update of spec section 4.5 to the seed 2 pi n ln n, with no
convergence check or early exit (the recursion has no other branch). -/
theorem estimate_t_newton (n : ℝ) (h : 1 ≤ n) :
    estimate_t n = (newtonStep_spec n)^[20] (2 * π * n * Real.log n) := by
  unfold estimate_t
  rw [if_neg (not_lt.mpr h)]
  exact newtonLoop_eq_iterate n 20 _

/-- Witness for C4 at n = 2. -/
theorem estimate_t_newton_witness :
    (1 : ℝ) ≤ 2 ∧
      estimate_t 2 = (newtonStep_spec 2)^[20] (2 * π * 2 * Real.log 2) :=
  ⟨one_le_two, estimate_t_newton 2 one_le_two⟩

/-- C10: the correction-term count saturates at 2: for every t and every
terms >= 2 the two guards `1 <= terms` and `2 <= terms` are the only tests
made, so z_func t terms = z_func t 2. -/
theorem z_func_saturates (t : ℝ) (terms : ℕ) (h : 2 ≤ terms) :
    z_func t terms = z_func t 2 := by
  have h1 : 1 ≤ terms := le_trans one_le_two h
  simp [z_func, h, h1]

/-- Witness for C10 at t = 1, terms = 3. -/
theorem z_func_saturates_witness :
    (2 : ℕ) ≤ 3 ∧ z_func 1 3 = z_func 1 2 :=
  ⟨by norm_num, z_func_saturates 1 3 (by norm_num)⟩

end RiemannRho

end
